import Mathlib

/-!
Shallow embedding of the document retrieval engine of the repository
(`src/tools/vector_rag_tool.py`).  Python strings are modelled as `List Char`;
the external similarity index and the filesystem are modelled as explicit
inputs (`Except` for the fallible index query, `List Char → Option (List Char)`
for file contents).  Scores are exact rationals.
-/

namespace VRag

/-- Whitespace characters stripped by Python `str.strip()` / `str.split()`
(ASCII subset). -/
def isSpc (c : Char) : Bool :=
  c == ' ' || c == '\t' || c == '\n' || c == '\r' || c == '\x0b' || c == '\x0c'

/-- Python `str.strip()`: drop leading and trailing whitespace. -/
def pyStrip (l : List Char) : List Char :=
  ((l.dropWhile isSpc).reverse.dropWhile isSpc).reverse

/-- Python `str.lower()` (ASCII model). -/
def pyLower (l : List Char) : List Char :=
  l.map Char.toLower

/-- Worker for `pySplitOn`: scans left to right; `skip` counts separator
characters still to be consumed after a match. -/
def splitOnGo (sep : List Char) : List Char → Nat → List Char → List (List Char)
  | [], _, acc => [acc.reverse]
  | _ :: rest, Nat.succ n, acc => splitOnGo sep rest n acc
  | c :: rest, 0, acc =>
    if sep ≠ [] ∧ (c :: rest).take sep.length = sep then
      acc.reverse :: splitOnGo sep rest (sep.length - 1) []
    else
      splitOnGo sep rest 0 (c :: acc)

/-- Python `str.split(sep)` for a non-empty separator: non-overlapping
left-to-right matches, keeping empty pieces. -/
def pySplitOn (sep l : List Char) : List (List Char) :=
  splitOnGo sep l 0 []

/-- Worker for `pySplitWs`. -/
def splitWsGo : List Char → List Char → List (List Char)
  | [], acc => if acc.isEmpty then [] else [acc.reverse]
  | c :: rest, acc =>
    if isSpc c then
      if acc.isEmpty then splitWsGo rest [] else acc.reverse :: splitWsGo rest []
    else
      splitWsGo rest (c :: acc)

/-- Python `str.split()` (no argument): split on whitespace runs, dropping
empty pieces. -/
def pySplitWs (l : List Char) : List (List Char) :=
  splitWsGo l []

/-- The word set `set(text.lower().split())` used by the fallback scorer. -/
def pyWords (l : List Char) : Finset (List Char) :=
  (pySplitWs (pyLower l)).toFinset

/-- `score = overlap / total if total > 0 else 0` with
`overlap = |q ∩ d|`, `total = |q ∪ d|` (Jaccard similarity).  The exact
rational quotient is written with `Rat.divInt`; `jaccard_eq_div` states the
`overlap / total` form. -/
def jaccard (a b : Finset (List Char)) : ℚ :=
  if 0 < (a ∪ b).card then Rat.divInt ((a ∩ b).card : Int) ((a ∪ b).card : Int) else 0

/-- `\x7bt.strip().lower() for t in tags.split(",") if t.strip()\x7d`:
comma-split, trim, lowercase, drop empties. -/
def parseTags (s : List Char) : List (List Char) :=
  (pySplitOn [','] s).filterMap (fun t =>
    let t2 := pyStrip t
    if t2.isEmpty then none else some (pyLower t2))

/-- Python set `issubset`: every requested tag occurs among the stored tags. -/
def tagSubset (req doc : List (List Char)) : Prop :=
  ∀ x ∈ req, x ∈ doc

instance (req doc : List (List Char)) : Decidable (tagSubset req doc) :=
  List.decidableBAll _ req

/-- Truthiness of an optional string argument (`if tags:` in Python):
present and non-empty. -/
def optTruthy : Option (List Char) → Bool
  | none => false
  | some s => !s.isEmpty

/-- Python slice `l[:k]` for an `int` bound `k` (negative `k` counts from
the end). -/
def pyTake {α : Type} (k : Int) (l : List α) : List α :=
  if 0 ≤ k then l.take k.toNat else l.take ((l.length : Int) + k).toNat

/-- `text[:200] + "..." if len(text) > 200 else text`. -/
def pyExcerpt (text : List Char) : List Char :=
  if 200 < text.length then text.take 200 ++ ['.', '.', '.'] else text

/-- The paragraph separator `"\n\n"`. -/
def sep2 : List Char := ['\n', '\n']

/-- One iteration of the accumulation loop of `_split_document`: the state is
(flushed chunks, current buffer); the stripped paragraph is skipped if blank,
flushes the buffer when it would overflow 500 characters, and otherwise joins
the buffer with a blank line. -/
def chunkStep (st : List (List Char) × List Char) (par : List Char) :
    List (List Char) × List Char :=
  if (pyStrip par).isEmpty then st
  else if 500 < st.2.length + (pyStrip par).length ∧ ¬ st.2.isEmpty then
    (st.1 ++ [pyStrip st.2], pyStrip par)
  else if st.2.isEmpty then (st.1, pyStrip par)
  else (st.1, st.2 ++ sep2 ++ pyStrip par)

/-- End of the loop of `_split_document`: flush the remaining buffer if its
stripped form is non-empty. -/
def flushChunks (st : List (List Char) × List Char) : List (List Char) :=
  if (pyStrip st.2).isEmpty then st.1 else st.1 ++ [pyStrip st.2]

/-- Last lines of `_split_document`: if no chunk was produced but the text is
non-blank, emit the single chunk `text[:500]`. -/
def lastResort (text : List Char) (chunks : List (List Char)) : List (List Char) :=
  if chunks.isEmpty ∧ ¬ (pyStrip text).isEmpty then [text.take 500] else chunks

/-- `VectorRAGTool._split_document`: paragraph-based chunking with a 500
character target. -/
def split_document (text : List Char) : List (List Char) :=
  lastResort text (flushChunks ((pySplitOn sep2 text).foldl chunkStep ([], [])))

/-- A string whose first and last characters (when present) are not
whitespace. -/
def NiceStr (l : List Char) : Prop :=
  (∀ a, l.head? = some a → isSpc a = false) ∧ (∀ a, l.getLast? = some a → isSpc a = false)

/-! ### Invariants of the chunking loop -/

/-- A chunk is good if it fits in 502 characters or is a single stripped
source paragraph. -/
def GoodChunk (allPs : List (List Char)) (c : List Char) : Prop :=
  c.length ≤ 502 ∨ ∃ p ∈ allPs, c = pyStrip p

/-- Loop invariant: all flushed chunks are good, and the buffer is empty or a
non-empty whitespace-trimmed good chunk. -/
def GoodState (allPs : List (List Char)) (st : List (List Char) × List Char) : Prop :=
  (∀ c ∈ st.1, GoodChunk allPs c) ∧
  (st.2 = [] ∨ (st.2 ≠ [] ∧ NiceStr st.2 ∧ GoodChunk allPs st.2))

/-! ### Data model of the retriever -/

/-- A row of `SELECT id, module, path, tags FROM documents` (`tags` is
nullable). -/
structure Row where
  id : Int
  module : List Char
  path : List Char
  tags : Option (List Char)
deriving DecidableEq

/-- Chunk metadata stored in the index collection. -/
structure Meta where
  doc_id : Int
  module : List Char
  path : List Char
  tags : List Char
  chunk_index : Nat
deriving DecidableEq

/-- One nearest neighbor returned by the index query: the chunk text, its
metadata and its distance. -/
structure Neighbor where
  doc : List Char
  meta : Meta
  distance : ℚ
deriving DecidableEq

/-- A result dictionary produced by `search` (`tags` is the raw stored string;
`None` can flow through on the fallback path). -/
structure Result where
  id : Int
  module : List Char
  tags : Option (List Char)
  score : ℚ
  excerpt : List Char
  path : List Char
deriving DecidableEq

/-! ### Fallback search (`_fallback_search`) -/

/-- One iteration of the row loop of `_fallback_search`: module filter, tag
superset filter, file read (with missing/unreadable files and empty text
skipped), Jaccard scoring, and zero-score exclusion. `contents` maps a path to
its file content (`none` when the file is missing or unreadable). -/
def rowResult (contents : List Char → Option (List Char)) (qw : Finset (List Char))
    (module? tags? : Option (List Char)) (row : Row) : Option Result :=
  if optTruthy module? ∧ row.module ≠ module?.getD [] then none
  else if optTruthy tags? ∧
      ¬ tagSubset (parseTags (tags?.getD [])) (parseTags (row.tags.getD [])) then none
  else
    (if row.path.isEmpty then none else contents row.path).bind (fun text =>
      if text.isEmpty then none
      else
        if 0 < jaccard qw (pyWords text) then
          some ⟨row.id, row.module, row.tags, jaccard qw (pyWords text),
                pyExcerpt text, row.path⟩
        else none)

/-- Stable descending insertion by score (earlier elements stay first on
ties), matching Python's stable `sort(key=score, reverse=True)`. -/
def insertDesc (r : Result) : List Result → List Result
  | [] => [r]
  | x :: xs => if r.score < x.score then x :: insertDesc r xs else r :: x :: xs

/-- Stable sort by descending score. -/
def sortDesc (l : List Result) : List Result :=
  l.foldr insertDesc []

/-- `VectorRAGTool._fallback_search`: keyword-overlap scoring over all
document rows, sorted by descending score, sliced to `results[:k]`. -/
def fallback_search (rows : List Row) (contents : List Char → Option (List Char))
    (query : List Char) (k : Int) (module? tags? : Option (List Char)) : List Result :=
  pyTake k (sortDesc (rows.filterMap (rowResult contents (pyWords query) module? tags?)))

/-! ### Similarity-path search (`search`) -/

/-- The result dictionary built from a neighbor on the similarity path:
`score = max(0, 1 - distance)` and the excerpt truncated to 200 characters. -/
def mkSimResult (n : Neighbor) : Result :=
  ⟨n.meta.doc_id, n.meta.module, some n.meta.tags, max 0 (1 - n.distance),
   pyExcerpt n.doc, n.meta.path⟩

/-- The result-processing loop of `search`: per neighbor, client-side tag
filtering, then append a result and stop as soon as `len(processed) ≥ k`. -/
def processNeighbors (tags? : Option (List Char)) (k : Int) :
    List Neighbor → List Result → List Result
  | [], acc => acc
  | n :: rest, acc =>
    if optTruthy tags? ∧
        ¬ tagSubset (parseTags (tags?.getD [])) (parseTags n.meta.tags) then
      processNeighbors tags? k rest acc
    else
      if k ≤ ((acc ++ [mkSimResult n]).length : Int) then acc ++ [mkSimResult n]
      else processNeighbors tags? k rest (acc ++ [mkSimResult n])

/-- `VectorRAGTool.search`. `avail` models `self.model and self.collection`
being present; `idx` models the outcome of the `try` block's interaction with
the index (the neighbor list on success, or the caught exception). -/
def search (avail : Bool) (idx : Except Unit (List Neighbor)) (rows : List Row)
    (contents : List Char → Option (List Char)) (query : List Char) (k : Int)
    (module? tags? : Option (List Char)) : List Result :=
  if !avail then fallback_search rows contents query k module? tags?
  else
    match idx with
    | .error _ => fallback_search rows contents query k module? tags?
    | .ok neighbors =>
      if neighbors.isEmpty then []
      else processNeighbors tags? k neighbors []

/-- The neighbor list underlying an index outcome (empty on error). -/
def neighborsOf : Except Unit (List Neighbor) → List Neighbor
  | .ok l => l
  | .error _ => []

/-! ### Collection loading (`_load_documents_if_needed` / `_load_all_documents`) -/

/-- One entry added to the index collection: unique key
`f"\x7bdoc_id\x7d_\x7bi\x7d"`, chunk text, and metadata. -/
structure Entry where
  key : List Char
  doc : List Char
  meta : Meta
deriving DecidableEq

/-- The index collection, as the multiset (here: list) of its entries. -/
structure Collection where
  entries : List Entry
deriving DecidableEq

/-- The entries contributed by one document row in `_load_all_documents`:
skip rows whose path does not resolve to readable content or whose content is
blank, otherwise chunk the content and attach metadata per chunk. -/
def rowEntries (contents : List Char → Option (List Char)) (row : Row) : List Entry :=
  match (if row.path.isEmpty then none else contents row.path) with
  | none => []
  | some text =>
    if (pyStrip text).isEmpty then []
    else
      (split_document text).enum.map (fun p =>
        ⟨(toString row.id).data ++ ['_'] ++ (toString p.1).data, p.2,
         ⟨row.id, row.module, row.path, row.tags.getD [], p.1⟩⟩)

/-- All entries accumulated over the rows, in row order. -/
def chunkEntries (contents : List Char → Option (List Char)) (rows : List Row) :
    List Entry :=
  rows.foldr (fun r acc => rowEntries contents r ++ acc) []

/-- Batched insertion (batch size 100) into the collection. -/
def addInBatches (c : Collection) (es : List Entry) : Collection :=
  if hb : es.isEmpty then c
  else addInBatches ⟨c.entries ++ es.take 100⟩ (es.drop 100)
termination_by es.length
decreasing_by
  cases es with
  | nil => simp at hb
  | cons a t =>
    simp only [List.length_drop, List.length_cons]
    omega

/-- `VectorRAGTool._load_all_documents`: requires the model and the collection,
computes all chunk entries, and adds them in batches (no-op when there is
nothing to add). The second component records the writes performed. -/
def load_all_documents (hasModel hasCollection : Bool) (rows : List Row)
    (contents : List Char → Option (List Char)) (c : Collection) :
    Collection × List Entry :=
  if !hasModel || !hasCollection then (c, [])
  else
    if (chunkEntries contents rows).isEmpty then (c, [])
    else (addInBatches c (chunkEntries contents rows), chunkEntries contents rows)

/-- `VectorRAGTool._load_documents_if_needed`: return immediately when there
is no collection, or when `collection.count()` reports a positive count; a
failing `count()` call falls through to a full load. -/
def load_documents_if_needed (hasCollection : Bool) (countResult : Except Unit Nat)
    (hasModel : Bool) (rows : List Row) (contents : List Char → Option (List Char))
    (c : Collection) : Collection × List Entry :=
  if !hasCollection then (c, [])
  else
    match countResult with
    | .ok n =>
      if 0 < n then (c, [])
      else load_all_documents hasModel hasCollection rows contents c
    | .error _ => load_all_documents hasModel hasCollection rows contents c

/-! ### Spec-side description of the fallback candidates (§4.4) -/

/-- The spec's §4.4 per-document filter: module equality when a module is
given, and tag-set superset match when tags are given. -/
def specPred (module? tags? : Option (List Char)) (row : Row) : Prop :=
  (optTruthy module? → row.module = module?.getD []) ∧
  (optTruthy tags? →
    tagSubset (parseTags (tags?.getD [])) (parseTags (row.tags.getD [])))

instance (module? tags? : Option (List Char)) (row : Row) :
    Decidable (specPred module? tags? row) := by
  unfold specPred
  infer_instance

/-- The spec's §4.4 per-document scoring: read the file, tokenize into a
lowercase word set, compute Jaccard similarity, exclude zero scores. -/
def specScore (contents : List Char → Option (List Char)) (query : List Char)
    (row : Row) : Option Result :=
  (if row.path.isEmpty then none else contents row.path).bind (fun text =>
    if text.isEmpty then none
    else
      if 0 < jaccard (pyWords query) (pyWords text) then
        some ⟨row.id, row.module, row.tags, jaccard (pyWords query) (pyWords text),
              pyExcerpt text, row.path⟩
      else none)

/-- Modelled from the spec: the candidate list as §4.4 words it — documents
filtered first by module equality and tags superset match, then read and
scored by Jaccard similarity on lowercase word sets, with zero-overlap
documents excluded entirely. Used only to compare with the transcription
`fallback_search`. -/
def specFallbackCandidates (rows : List Row) (contents : List Char → Option (List Char))
    (query : List Char) (module? tags? : Option (List Char)) : List Result :=
  (rows.filter (fun row => decide (specPred module? tags? row))).filterMap
    (specScore contents query)

/-! ### Concrete fixtures used by the witnesses -/

/-- A concrete document row. -/
def row1 : Row := ⟨1, "finance".data, "p1".data, some "Policy, HR".data⟩

/-- A second concrete document row (null tags). -/
def row2 : Row := ⟨2, "sales".data, "p2".data, none⟩

/-- A concrete filesystem. -/
def contents0 : List Char → Option (List Char) := fun p =>
  if p = "p1".data then some "refund policy applies".data
  else if p = "p2".data then some "sales playbook refund".data
  else none

/-- A concrete neighbor returned by the index. -/
def n1 : Neighbor :=
  ⟨"refund policy applies".data, ⟨1, "finance".data, "p1".data, "policy".data, 0⟩,
   Rat.divInt 1 2⟩

/-- A concrete collection entry. -/
def e0 : Entry :=
  ⟨"1_0".data, "refund policy applies".data,
   ⟨1, "finance".data, "p1".data, "Policy, HR".data, 0⟩⟩

/-- A concrete non-empty collection. -/
def c0 : Collection := ⟨[e0]⟩

/-! ### Lemmas about the string primitives -/

theorem dropWhile_head_false {p : Char → Bool} :
    ∀ (l : List Char) (a : Char) (t : List Char), l.dropWhile p = a :: t → p a = false := by
  intro l
  induction l with
  | nil => intro a t h; simp at h
  | cons c rest ih =>
    intro a t h
    rw [List.dropWhile_cons] at h
    by_cases hc : p c
    · rw [if_pos hc] at h
      exact ih a t h
    · rw [if_neg hc] at h
      simp only [List.cons.injEq] at h
      rcases h with ⟨rfl, rfl⟩
      simpa using hc

theorem getLast?_of_suffix {l s : List Char} (h : s <:+ l) (hs : s ≠ []) :
    s.getLast? = l.getLast? := by
  obtain ⟨t, rfl⟩ := h
  exact (List.getLast?_append_of_ne_nil t hs).symm

theorem niceStr_pyStrip (l : List Char) : NiceStr (pyStrip l) := by
  unfold pyStrip NiceStr
  constructor
  · intro a ha
    rw [List.head?_reverse] at ha
    have hvne : (l.dropWhile isSpc).reverse.dropWhile isSpc ≠ [] := by
      intro h'; rw [h'] at ha; simp at ha
    have hsuf : (l.dropWhile isSpc).reverse.dropWhile isSpc <:+ (l.dropWhile isSpc).reverse :=
      List.dropWhile_suffix _
    rw [getLast?_of_suffix hsuf hvne, List.getLast?_reverse] at ha
    cases hu : l.dropWhile isSpc with
    | nil => rw [hu] at ha; simp at ha
    | cons b t =>
      rw [hu] at ha
      simp only [List.head?_cons, Option.some.injEq] at ha
      rw [← ha]
      exact dropWhile_head_false l b t hu
  · intro a ha
    rw [List.getLast?_reverse] at ha
    cases hv : (l.dropWhile isSpc).reverse.dropWhile isSpc with
    | nil => rw [hv] at ha; simp at ha
    | cons b t =>
      rw [hv] at ha
      simp only [List.head?_cons, Option.some.injEq] at ha
      rw [← ha]
      exact dropWhile_head_false _ b t hv

theorem niceStr_eq_self {l : List Char} (h : NiceStr l) : pyStrip l = l := by
  cases l with
  | nil => rfl
  | cons a t =>
    have ha : isSpc a = false := h.1 a rfl
    unfold pyStrip
    rw [List.dropWhile_cons, if_neg (by simp [ha])]
    cases hr : (a :: t).reverse with
    | nil => simp at hr
    | cons b s =>
      have hb : (a :: t).getLast? = some b := by
        rw [← List.head?_reverse, hr]; rfl
      have hbws : isSpc b = false := h.2 b hb
      rw [List.dropWhile_cons, if_neg (by simp [hbws]), ← hr, List.reverse_reverse]

theorem niceStr_append {x y : List Char} (hx : x ≠ []) (hy : y ≠ [])
    (nx : NiceStr x) (ny : NiceStr y) : NiceStr (x ++ sep2 ++ y) := by
  constructor
  · intro a ha
    rw [List.append_assoc, List.head?_append_of_ne_nil x hx] at ha
    exact nx.1 a ha
  · intro a ha
    rw [List.getLast?_append_of_ne_nil _ hy] at ha
    exact ny.2 a ha

theorem pyStrip_eq_nil_iff {l : List Char} :
    pyStrip l = [] ↔ ∀ a ∈ l, isSpc a = true := by
  unfold pyStrip
  constructor
  · intro h a ha
    rw [List.reverse_eq_nil_iff, List.dropWhile_eq_nil_iff] at h
    by_cases hd : a ∈ l.dropWhile isSpc
    · exact h a (List.mem_reverse.mpr hd)
    · have hsplit := List.takeWhile_append_dropWhile (p := isSpc) (l := l)
      rw [← hsplit] at ha
      rcases List.mem_append.mp ha with h1 | h2
      · exact List.mem_takeWhile_imp h1
      · exact absurd h2 hd
  · intro h
    rw [List.dropWhile_eq_nil_iff.mpr h]
    rfl

theorem pyStrip_nil : pyStrip [] = [] := rfl

theorem chunkStep_good {allPs : List (List Char)} {st : List (List Char) × List Char}
    {par : List Char} (hp : par ∈ allPs) (h : GoodState allPs st) :
    GoodState allPs (chunkStep st par) := by
  obtain ⟨hchunks, hcur⟩ := h
  unfold chunkStep
  by_cases h1 : (pyStrip par).isEmpty
  · rw [if_pos h1]; exact ⟨hchunks, hcur⟩
  rw [if_neg h1]
  have hpar_ne : pyStrip par ≠ [] := by simpa [List.isEmpty_iff] using h1
  have hpar_nice : NiceStr (pyStrip par) := niceStr_pyStrip par
  have hpar_good : GoodChunk allPs (pyStrip par) := Or.inr ⟨par, hp, rfl⟩
  by_cases h2 : 500 < st.2.length + (pyStrip par).length ∧ ¬ st.2.isEmpty
  · rw [if_pos h2]
    have hne : st.2 ≠ [] := by simpa [List.isEmpty_iff] using h2.2
    rcases hcur with hnil | ⟨_, hnice, hgood⟩
    · exact absurd hnil hne
    refine ⟨?_, Or.inr ⟨hpar_ne, hpar_nice, hpar_good⟩⟩
    intro c hc
    rcases List.mem_append.mp hc with hcl | hcr
    · exact hchunks c hcl
    · have hcs : c = pyStrip st.2 := by simpa using hcr
      rw [hcs, niceStr_eq_self hnice]
      exact hgood
  rw [if_neg h2]
  by_cases h3 : st.2.isEmpty
  · rw [if_pos h3]
    exact ⟨hchunks, Or.inr ⟨hpar_ne, hpar_nice, hpar_good⟩⟩
  rw [if_neg h3]
  have hne : st.2 ≠ [] := by simpa [List.isEmpty_iff] using h3
  rcases hcur with hnil | ⟨_, hnice, hgood⟩
  · exact absurd hnil hne
  refine ⟨hchunks, Or.inr ⟨by simp [sep2], niceStr_append hne hpar_ne hnice hpar_nice, Or.inl ?_⟩⟩
  have hle : ¬ (500 < st.2.length + (pyStrip par).length) := fun hlt => h2 ⟨hlt, h3⟩
  simp only [List.length_append, sep2, List.length_cons, List.length_nil]
  omega

theorem foldl_chunkStep_good {allPs : List (List Char)} :
    ∀ (ps : List (List Char)) (st : List (List Char) × List Char),
      (∀ p ∈ ps, p ∈ allPs) → GoodState allPs st →
      GoodState allPs (ps.foldl chunkStep st) := by
  intro ps
  induction ps with
  | nil => intro st _ h; exact h
  | cons p rest ih =>
    intro st hsub h
    exact ih _ (fun q hq => hsub q (List.mem_cons_of_mem p hq))
      (chunkStep_good (hsub p (List.mem_cons_self p rest)) h)

theorem splitOnGo_chars {sep : List Char} :
    ∀ (l : List Char) (skip : Nat) (acc : List Char) (piece : List Char),
      piece ∈ splitOnGo sep l skip acc → ∀ c ∈ piece, c ∈ l ∨ c ∈ acc := by
  intro l
  induction l with
  | nil =>
    intro skip acc piece hp c hc
    simp only [splitOnGo, List.mem_singleton] at hp
    subst hp
    exact Or.inr (List.mem_reverse.mp hc)
  | cons a rest ih =>
    intro skip acc piece hp c hc
    cases skip with
    | succ n =>
      rcases ih n acc piece (by simpa [splitOnGo] using hp) c hc with h | h
      · exact Or.inl (List.mem_cons_of_mem a h)
      · exact Or.inr h
    | zero =>
      simp only [splitOnGo] at hp
      by_cases hm : sep ≠ [] ∧ (a :: rest).take sep.length = sep
      · rw [if_pos hm] at hp
        rcases List.mem_cons.mp hp with hp1 | hp2
        · subst hp1
          exact Or.inr (List.mem_reverse.mp hc)
        · rcases ih (sep.length - 1) [] piece hp2 c hc with h | h
          · exact Or.inl (List.mem_cons_of_mem a h)
          · simp at h
      · rw [if_neg hm] at hp
        rcases ih 0 (a :: acc) piece hp c hc with h | h
        · exact Or.inl (List.mem_cons_of_mem a h)
        · rcases List.mem_cons.mp h with h1 | h2
          · exact Or.inl (h1 ▸ List.mem_cons_self a rest)
          · exact Or.inr h2

theorem pySplitOn_piece_ws {text piece : List Char}
    (hall : ∀ a ∈ text, isSpc a = true) (hp : piece ∈ pySplitOn sep2 text) :
    pyStrip piece = [] := by
  apply pyStrip_eq_nil_iff.mpr
  intro a ha
  rcases splitOnGo_chars text 0 [] piece hp a ha with h | h
  · exact hall a h
  · simp at h

theorem foldl_chunkStep_ws :
    ∀ (ps : List (List Char)), (∀ p ∈ ps, pyStrip p = []) →
      ps.foldl chunkStep ([], ([] : List Char)) = ([], []) := by
  intro ps
  induction ps with
  | nil => intro _; rfl
  | cons p rest ih =>
    intro h
    have hp : pyStrip p = [] := h p (List.mem_cons_self p rest)
    have hstep : chunkStep ([], []) p = ([], []) := by
      unfold chunkStep
      rw [if_pos (by simp [hp])]
    rw [List.foldl_cons, hstep]
    exact ih (fun q hq => h q (List.mem_cons_of_mem p hq))

/-- C4: `_split_document` returns an empty chunk list exactly when the input
text is empty or whitespace-only; any text with a non-whitespace character
yields at least one chunk. -/
theorem claim_C4 (text : List Char) :
    split_document text = [] ↔ pyStrip text = [] := by
  constructor
  · intro hsd
    by_contra hne
    unfold split_document lastResort at hsd
    by_cases hch : (flushChunks ((pySplitOn sep2 text).foldl chunkStep ([], []))).isEmpty ∧
        ¬ (pyStrip text).isEmpty
    · rw [if_pos hch] at hsd
      simp at hsd
    · rw [if_neg hch] at hsd
      have hemp : ¬ (pyStrip text).isEmpty = true := by
        simp only [List.isEmpty_iff]
        exact hne
      exact hch ⟨by rw [hsd]; rfl, hemp⟩
  · intro h
    have hall := pyStrip_eq_nil_iff.mp h
    have hfold : (pySplitOn sep2 text).foldl chunkStep ([], []) = ([], []) :=
      foldl_chunkStep_ws _ (fun p hp => pySplitOn_piece_ws hall hp)
    unfold split_document lastResort
    rw [hfold]
    have hfl : flushChunks ([], []) = [] := by
      unfold flushChunks
      rw [if_pos (by simp [pyStrip_nil])]
    rw [hfl, if_neg ?_]
    intro hcontra
    exact hcontra.2 (by simp [h])

set_option maxRecDepth 20000 in
/-- C3 counterexample: on a single 501-character paragraph, `_split_document`
returns that paragraph whole as one chunk of 501 characters; it is neither
at most 500 characters long nor hard-truncated to exactly 500. -/
theorem claim_C3_counterexample :
    ∃ c ∈ split_document (List.replicate 501 'a'), 500 < c.length ∧ c.length ≠ 500 := by
  decide

/-- C3 (amended): every chunk returned by `_split_document` either has length
at most 502 characters (a buffer of several paragraphs joined by blank lines
can exceed 500 by the two joining newlines) or is a single stripped source
paragraph returned whole — an oversized paragraph is not truncated. -/
theorem claim_C3 (text : List Char) (c : List Char) (hc : c ∈ split_document text) :
    c.length ≤ 502 ∨ ∃ p ∈ pySplitOn sep2 text, c = pyStrip p := by
  have hst : GoodState (pySplitOn sep2 text) ((pySplitOn sep2 text).foldl chunkStep ([], [])) :=
    foldl_chunkStep_good _ _ (fun _ h => h) ⟨by simp, Or.inl rfl⟩
  unfold split_document lastResort at hc
  by_cases hres : (flushChunks ((pySplitOn sep2 text).foldl chunkStep ([], []))).isEmpty ∧
      ¬ (pyStrip text).isEmpty
  · rw [if_pos hres] at hc
    have hc' : c = text.take 500 := by simpa using hc
    left
    rw [hc']
    have := List.length_take 500 text
    omega
  · rw [if_neg hres] at hc
    unfold flushChunks at hc
    by_cases hf : (pyStrip ((pySplitOn sep2 text).foldl chunkStep ([], [])).2).isEmpty
    · rw [if_pos hf] at hc
      exact hst.1 c hc
    · rw [if_neg hf] at hc
      rcases List.mem_append.mp hc with h1 | h2
      · exact hst.1 c h1
      · have hc2 : c = pyStrip ((pySplitOn sep2 text).foldl chunkStep ([], [])).2 := by
          simpa using h2
        rcases hst.2 with hnil | ⟨_, hnice, hgood⟩
        · rw [hnil] at hf
          exact absurd (by simp [pyStrip_nil]) hf
        · rw [hc2, niceStr_eq_self hnice]
          exact hgood

/-- C3 witness for the amended theorem at a concrete input. -/
theorem claim_C3_witness :
    ("hi".data ∈ split_document "hi".data) ∧
      (("hi".data).length ≤ 502 ∨ ∃ p ∈ pySplitOn sep2 "hi".data, "hi".data = pyStrip p) :=
  ⟨by decide, claim_C3 "hi".data "hi".data (by decide)⟩
/-! ### Lemmas about sorting, slicing and scoring -/

theorem mem_insertDesc {r a : Result} {l : List Result} :
    a ∈ insertDesc r l ↔ a = r ∨ a ∈ l := by
  induction l with
  | nil => simp [insertDesc]
  | cons x xs ih =>
    simp only [insertDesc]
    by_cases hr : r.score < x.score
    · rw [if_pos hr]
      simp only [List.mem_cons, ih]
      tauto
    · rw [if_neg hr]
      simp only [List.mem_cons]

theorem mem_sortDesc {a : Result} {l : List Result} : a ∈ sortDesc l ↔ a ∈ l := by
  induction l with
  | nil => simp [sortDesc]
  | cons x xs ih =>
    simp only [sortDesc, List.foldr_cons] at *
    rw [mem_insertDesc, ih, List.mem_cons]

theorem length_insertDesc (r : Result) (l : List Result) :
    (insertDesc r l).length = l.length + 1 := by
  induction l with
  | nil => rfl
  | cons x xs ih =>
    simp only [insertDesc]
    by_cases hr : r.score < x.score
    · rw [if_pos hr]
      simp only [List.length_cons, ih]
    · rw [if_neg hr]
      simp only [List.length_cons]

theorem length_sortDesc (l : List Result) : (sortDesc l).length = l.length := by
  induction l with
  | nil => rfl
  | cons x xs ih =>
    simp only [sortDesc, List.foldr_cons] at *
    rw [length_insertDesc, ih, List.length_cons]

theorem pairwise_insertDesc {r : Result} {l : List Result}
    (h : l.Pairwise (fun a b => b.score ≤ a.score)) :
    (insertDesc r l).Pairwise (fun a b => b.score ≤ a.score) := by
  induction l with
  | nil => simp [insertDesc]
  | cons x xs ih =>
    simp only [insertDesc]
    rcases List.pairwise_cons.mp h with ⟨hx, hxs⟩
    by_cases hr : r.score < x.score
    · rw [if_pos hr]
      refine List.pairwise_cons.mpr ⟨?_, ih hxs⟩
      intro y hy
      rcases mem_insertDesc.mp hy with rfl | hy'
      · exact le_of_lt hr
      · exact hx y hy'
    · rw [if_neg hr]
      refine List.pairwise_cons.mpr ⟨?_, h⟩
      intro y hy
      rcases List.mem_cons.mp hy with rfl | hy'
      · exact le_of_not_lt hr
      · exact le_trans (hx y hy') (le_of_not_lt hr)

theorem pairwise_sortDesc (l : List Result) :
    (sortDesc l).Pairwise (fun a b => b.score ≤ a.score) := by
  induction l with
  | nil => simp [sortDesc]
  | cons x xs ih =>
    simp only [sortDesc, List.foldr_cons] at *
    exact pairwise_insertDesc ih

theorem pyTake_sublist {α : Type} (k : Int) (l : List α) : (pyTake k l).Sublist l := by
  unfold pyTake
  by_cases h : 0 ≤ k
  · rw [if_pos h]
    exact List.take_sublist _ _
  · rw [if_neg h]
    exact List.take_sublist _ _

theorem mem_pyTake {α : Type} {k : Int} {l : List α} {a : α} (h : a ∈ pyTake k l) :
    a ∈ l :=
  (pyTake_sublist k l).subset h

theorem length_pyTake_le {α : Type} {k : Int} (hk : 0 ≤ k) (l : List α) :
    ((pyTake k l).length : Int) ≤ k := by
  unfold pyTake
  rw [if_pos hk, List.length_take]
  calc ((k.toNat ⊓ l.length : Nat) : Int) ≤ (k.toNat : Int) := by
        exact_mod_cast min_le_left _ _
    _ = k := Int.toNat_of_nonneg hk

theorem jaccard_eq_div (a b : Finset (List Char)) :
    jaccard a b =
      if 0 < (a ∪ b).card then ((a ∩ b).card : ℚ) / ((a ∪ b).card : ℚ) else 0 := by
  unfold jaccard
  by_cases h : 0 < (a ∪ b).card
  · rw [if_pos h, if_pos h, Rat.divInt_eq_div]
    push_cast
    rfl
  · rw [if_neg h, if_neg h]

theorem jaccard_nonneg (a b : Finset (List Char)) : 0 ≤ jaccard a b := by
  rw [jaccard_eq_div]
  by_cases h : 0 < (a ∪ b).card
  · rw [if_pos h]
    positivity
  · rw [if_neg h]

theorem jaccard_le_one (a b : Finset (List Char)) : jaccard a b ≤ 1 := by
  rw [jaccard_eq_div]
  by_cases h : 0 < (a ∪ b).card
  · rw [if_pos h, div_le_one (by exact_mod_cast h)]
    exact_mod_cast Finset.card_le_card
      ((Finset.inter_subset_left).trans Finset.subset_union_left)
  · rw [if_neg h]
    exact zero_le_one

/-! ### Lemmas about the fallback row loop -/

theorem rowResult_eq_some {contents : List Char → Option (List Char)}
    {qw : Finset (List Char)} {module? tags? : Option (List Char)} {row : Row}
    {r : Result} (h : rowResult contents qw module? tags? row = some r) :
    r.tags = row.tags ∧ r.path = row.path ∧
    (optTruthy tags? →
      tagSubset (parseTags (tags?.getD [])) (parseTags (row.tags.getD []))) ∧
    ∃ text, contents row.path = some text ∧
      r.score = jaccard qw (pyWords text) ∧ 0 < r.score := by
  unfold rowResult at h
  by_cases h1 : optTruthy module? ∧ row.module ≠ module?.getD []
  · rw [if_pos h1] at h
    exact absurd h (by simp)
  rw [if_neg h1] at h
  by_cases h2 : optTruthy tags? ∧
      ¬ tagSubset (parseTags (tags?.getD [])) (parseTags (row.tags.getD []))
  · rw [if_pos h2] at h
    exact absurd h (by simp)
  rw [if_neg h2] at h
  have hpass : optTruthy tags? →
      tagSubset (parseTags (tags?.getD [])) (parseTags (row.tags.getD [])) := by
    intro ht
    by_contra hs
    exact h2 ⟨ht, hs⟩
  rcases Option.bind_eq_some.mp h with ⟨text, hread, hbody⟩
  have hpath : ¬ row.path.isEmpty := by
    intro hp
    rw [if_pos hp] at hread
    exact absurd hread (by simp)
  rw [if_neg hpath] at hread
  by_cases h3 : text.isEmpty
  · rw [if_pos h3] at hbody
    exact absurd hbody (by simp)
  rw [if_neg h3] at hbody
  by_cases h4 : 0 < jaccard qw (pyWords text)
  · rw [if_pos h4] at hbody
    cases hbody
    exact ⟨rfl, rfl, hpass, text, hread, rfl, h4⟩
  · rw [if_neg h4] at hbody
    exact absurd hbody (by simp)

theorem rowResult_eq_specScore {contents : List Char → Option (List Char)}
    {query : List Char} {module? tags? : Option (List Char)} {row : Row}
    (hpred : specPred module? tags? row) :
    rowResult contents (pyWords query) module? tags? row = specScore contents query row := by
  unfold rowResult specScore
  rw [if_neg (fun hc => hc.2 (hpred.1 hc.1)), if_neg (fun hc => hc.2 (hpred.2 hc.1))]

theorem rowResult_eq_none {contents : List Char → Option (List Char)}
    {qw : Finset (List Char)} {module? tags? : Option (List Char)} {row : Row}
    (hpred : ¬ specPred module? tags? row) :
    rowResult contents qw module? tags? row = none := by
  unfold rowResult
  by_cases h1 : optTruthy module? ∧ row.module ≠ module?.getD []
  · rw [if_pos h1]
  · rw [if_neg h1]
    by_cases h2 : optTruthy tags? ∧
        ¬ tagSubset (parseTags (tags?.getD [])) (parseTags (row.tags.getD []))
    · rw [if_pos h2]
    · exfalso
      apply hpred
      constructor
      · intro ht
        by_contra hne
        exact h1 ⟨ht, hne⟩
      · intro ht
        by_contra hs
        exact h2 ⟨ht, hs⟩

theorem filterMap_rowResult_eq_spec (rows : List Row)
    (contents : List Char → Option (List Char)) (query : List Char)
    (module? tags? : Option (List Char)) :
    rows.filterMap (rowResult contents (pyWords query) module? tags?) =
      specFallbackCandidates rows contents query module? tags? := by
  unfold specFallbackCandidates
  induction rows with
  | nil => rfl
  | cons row rest ih =>
    rw [List.filterMap_cons]
    by_cases hpred : specPred module? tags? row
    · rw [List.filter_cons_of_pos (by simpa using hpred), List.filterMap_cons,
        rowResult_eq_specScore hpred]
      cases hs : specScore contents query row with
      | none => simpa [hs] using ih
      | some r => simp only [hs, ih]
    · rw [rowResult_eq_none hpred, List.filter_cons_of_neg (by simpa using hpred)]
      simpa using ih

/-! ### Lemmas about the similarity-path result loop -/

theorem processNeighbors_length_le {tags? : Option (List Char)} {k : Int} :
    ∀ (l : List Neighbor) (acc : List Result), (acc.length : Int) < k →
      ((processNeighbors tags? k l acc).length : Int) ≤ k := by
  intro l
  induction l with
  | nil =>
    intro acc h
    exact le_of_lt h
  | cons n rest ih =>
    intro acc h
    simp only [processNeighbors]
    by_cases hf : optTruthy tags? ∧
        ¬ tagSubset (parseTags (tags?.getD [])) (parseTags n.meta.tags)
    · rw [if_pos hf]
      exact ih acc h
    · rw [if_neg hf]
      by_cases hk : k ≤ (((acc ++ [mkSimResult n]).length : Nat) : Int)
      · rw [if_pos hk]
        simp only [List.length_append, List.length_cons, List.length_nil]
        push_cast
        omega
      · rw [if_neg hk]
        apply ih
        simp only [List.length_append, List.length_cons, List.length_nil] at hk ⊢
        push_cast at hk ⊢
        omega

theorem processNeighbors_mem {tags? : Option (List Char)} {k : Int} :
    ∀ (l : List Neighbor) (acc : List Result) (r : Result),
      r ∈ processNeighbors tags? k l acc →
      r ∈ acc ∨ ∃ n ∈ l,
        (optTruthy tags? →
          tagSubset (parseTags (tags?.getD [])) (parseTags n.meta.tags)) ∧
        r = mkSimResult n := by
  intro l
  induction l with
  | nil =>
    intro acc r h
    exact Or.inl h
  | cons n rest ih =>
    intro acc r h
    simp only [processNeighbors] at h
    by_cases hf : optTruthy tags? ∧
        ¬ tagSubset (parseTags (tags?.getD [])) (parseTags n.meta.tags)
    · rw [if_pos hf] at h
      rcases ih acc r h with h1 | ⟨m, hm, hp⟩
      · exact Or.inl h1
      · exact Or.inr ⟨m, List.mem_cons_of_mem n hm, hp⟩
    · rw [if_neg hf] at h
      have hpass : optTruthy tags? →
          tagSubset (parseTags (tags?.getD [])) (parseTags n.meta.tags) := by
        intro ht
        by_contra hs
        exact hf ⟨ht, hs⟩
      by_cases hk : k ≤ (((acc ++ [mkSimResult n]).length : Nat) : Int)
      · rw [if_pos hk] at h
        rcases List.mem_append.mp h with h1 | h2
        · exact Or.inl h1
        · exact Or.inr ⟨n, List.mem_cons_self n rest, hpass, by simpa using h2⟩
      · rw [if_neg hk] at h
        rcases ih _ r h with h1 | ⟨m, hm, hp⟩
        · rcases List.mem_append.mp h1 with h2 | h3
          · exact Or.inl h2
          · exact Or.inr ⟨n, List.mem_cons_self n rest, hpass, by simpa using h3⟩
        · exact Or.inr ⟨m, List.mem_cons_of_mem n hm, hp⟩

theorem processNeighbors_one {tags? : Option (List Char)} {k : Int} (hk : k ≤ 0) :
    ∀ (l : List Neighbor),
      (∃ n ∈ l, optTruthy tags? →
        tagSubset (parseTags (tags?.getD [])) (parseTags n.meta.tags)) →
      (processNeighbors tags? k l []).length = 1 := by
  intro l
  induction l with
  | nil =>
    intro h
    simp at h
  | cons n rest ih =>
    intro h
    obtain ⟨m, hm, hpass⟩ := h
    simp only [processNeighbors]
    by_cases hf : optTruthy tags? ∧
        ¬ tagSubset (parseTags (tags?.getD [])) (parseTags n.meta.tags)
    · rw [if_pos hf]
      apply ih
      rcases List.mem_cons.mp hm with rfl | hm'
      · exact absurd (hpass hf.1) hf.2
      · exact ⟨m, hm', hpass⟩
    · have hcond : k ≤ ((([] ++ [mkSimResult n]).length : Nat) : Int) := by
        simp only [List.nil_append, List.length_cons, List.length_nil]
        omega
      rw [if_neg hf, if_pos hcond]
      simp
/-! ### Small helper lemmas -/

theorem parseTags_nil : parseTags [] = [] := by decide

theorem optTruthy_some_false {t : List Char} (h : ¬ optTruthy (some t)) : t = [] := by
  simp [optTruthy, List.isEmpty_iff] at h
  exact h

/-! ### Claim theorems -/

/-- C1: for every positive `k`, `search` returns at most `k` results, on both
the similarity path (the loop stops once `len(processed) ≥ k`) and the
fallback path (the `results[:k]` slice). -/
theorem claim_C1 (avail : Bool) (idx : Except Unit (List Neighbor)) (rows : List Row)
    (contents : List Char → Option (List Char)) (query : List Char)
    (module? tags? : Option (List Char)) (k : Int) (hk : 0 < k) :
    ((search avail idx rows contents query k module? tags?).length : Int) ≤ k := by
  have fb : ((fallback_search rows contents query k module? tags?).length : Int) ≤ k :=
    length_pyTake_le (le_of_lt hk) _
  cases avail with
  | false => simpa [search] using fb
  | true =>
    cases idx with
    | error e => simpa [search] using fb
    | ok neighbors =>
      by_cases hne : neighbors.isEmpty
      · simp only [search, Bool.not_true, Bool.false_eq_true, if_false, if_pos hne]
        simp
        omega
      · have heq : search true (Except.ok neighbors) rows contents query k module? tags? =
            processNeighbors tags? k neighbors [] := by
          simp [search, hne]
        rw [heq]
        exact processNeighbors_length_le neighbors [] (by simpa using hk)

/-- C1 witness at a concrete query with `k = 1`. -/
theorem claim_C1_witness :
    ((0 : Int) < 1) ∧
      ((search true (Except.ok [n1]) [row1, row2] contents0 "refund".data 1
        none none).length : Int) ≤ 1 :=
  ⟨by decide, claim_C1 true (Except.ok [n1]) [row1, row2] contents0 "refund".data
    none none 1 (by decide)⟩

/-- C2: when the interaction with the index raises, `search` returns exactly
the fallback search on the same `query`, `k`, `module` and `tags` arguments;
no exception reaches the caller (the function is total and returns a result
list). -/
theorem claim_C2 (rows : List Row) (contents : List Char → Option (List Char))
    (query : List Char) (k : Int) (module? tags? : Option (List Char)) :
    search true (Except.error ()) rows contents query k module? tags? =
      fallback_search rows contents query k module? tags? := by
  simp [search]

/-- C5: with a tags filter, every result returned by `search` (similarity or
fallback path) stores a tag set that contains every requested tag, after
comma-splitting, trimming and lowercasing. -/
theorem claim_C5 (avail : Bool) (idx : Except Unit (List Neighbor)) (rows : List Row)
    (contents : List Char → Option (List Char)) (query : List Char) (k : Int)
    (module? : Option (List Char)) (t : List Char) (r : Result)
    (hr : r ∈ search avail idx rows contents query k module? (some t))
    (tag : List Char) (htag : tag ∈ parseTags t) :
    tag ∈ parseTags (r.tags.getD []) := by
  have fb : r ∈ fallback_search rows contents query k module? (some t) →
      tag ∈ parseTags (r.tags.getD []) := by
    intro hrf
    have hr2 := mem_sortDesc.mp (mem_pyTake hrf)
    rcases List.mem_filterMap.mp hr2 with ⟨row, _, hsome⟩
    rcases rowResult_eq_some hsome with ⟨htags, _, hpass, _⟩
    rw [htags]
    by_cases ht : optTruthy (some t)
    · exact hpass ht tag htag
    · rw [optTruthy_some_false ht, parseTags_nil] at htag
      simp at htag
  cases avail with
  | false =>
    apply fb
    simpa [search] using hr
  | true =>
    cases idx with
    | error e =>
      apply fb
      simpa [search] using hr
    | ok neighbors =>
      by_cases hne : neighbors.isEmpty
      · rw [show search true (Except.ok neighbors) rows contents query k module? (some t) =
            [] by simp [search, hne]] at hr
        simp at hr
      · rw [show search true (Except.ok neighbors) rows contents query k module? (some t) =
            processNeighbors (some t) k neighbors [] by simp [search, hne]] at hr
        rcases processNeighbors_mem neighbors [] r hr with h1 | ⟨n, _, hpass, hrn⟩
        · simp at h1
        · rw [hrn]
          by_cases ht : optTruthy (some t)
          · exact hpass ht tag htag
          · rw [optTruthy_some_false ht, parseTags_nil] at htag
            simp at htag

/-- C5 witness: a concrete fallback search with a tags filter. -/
theorem claim_C5_witness :
    ((⟨1, "finance".data, some "Policy, HR".data, Rat.divInt 1 3,
        "refund policy applies".data, "p1".data⟩ : Result) ∈
      search false (Except.ok []) [row1, row2] contents0 "refund".data 3 none
        (some "policy".data) ∧
      "policy".data ∈ parseTags "policy".data) ∧
    "policy".data ∈ parseTags
      ((⟨1, "finance".data, some "Policy, HR".data, Rat.divInt 1 3,
        "refund policy applies".data, "p1".data⟩ : Result).tags.getD []) :=
  ⟨⟨by decide, by decide⟩,
    claim_C5 false (Except.ok []) [row1, row2] contents0 "refund".data 3 none
      "policy".data _ (by decide) "policy".data (by decide)⟩

/-- C6: the fallback matcher returns exactly the spec-described candidate
list — documents filtered by module and tags, scored by Jaccard similarity
`|intersection| / |union|` on lowercase word sets, zero scores excluded —
sorted by descending score and truncated to the top `k`; every returned
result carries a positive Jaccard score of its file content. -/
theorem claim_C6 (rows : List Row) (contents : List Char → Option (List Char))
    (query : List Char) (k : Int) (module? tags? : Option (List Char)) :
    fallback_search rows contents query k module? tags? =
      pyTake k (sortDesc (specFallbackCandidates rows contents query module? tags?)) ∧
    (fallback_search rows contents query k module? tags?).Pairwise
      (fun a b => b.score ≤ a.score) ∧
    ∀ r ∈ fallback_search rows contents query k module? tags?,
      (∃ text, contents r.path = some text ∧
        r.score = (((pyWords query) ∩ (pyWords text)).card : ℚ) /
          (((pyWords query) ∪ (pyWords text)).card : ℚ)) ∧
      0 < r.score := by
  refine ⟨?_, ?_, ?_⟩
  · unfold fallback_search
    rw [filterMap_rowResult_eq_spec]
  · exact List.Pairwise.sublist (pyTake_sublist _ _) (pairwise_sortDesc _)
  · intro r hr
    have hr2 := mem_sortDesc.mp (mem_pyTake hr)
    rcases List.mem_filterMap.mp hr2 with ⟨row, _, hsome⟩
    rcases rowResult_eq_some hsome with ⟨_, hpath, _, text, hread, hscore, hpos⟩
    have hu : 0 < ((pyWords query) ∪ (pyWords text)).card := by
      by_contra hc
      rw [hscore, jaccard_eq_div, if_neg hc] at hpos
      exact lt_irrefl 0 hpos
    refine ⟨⟨text, by rw [hpath]; exact hread, ?_⟩, hpos⟩
    rw [hscore, jaccard_eq_div, if_pos hu]

/-- C7: when the collection reports a positive entry count, the
document-loading step returns immediately: the collection is unchanged and
the list of writes performed is empty. -/
theorem claim_C7 (n : Nat) (hn : 0 < n) (hasModel : Bool) (rows : List Row)
    (contents : List Char → Option (List Char)) (c : Collection) :
    load_documents_if_needed true (Except.ok n) hasModel rows contents c = (c, []) := by
  simp [load_documents_if_needed, hn]

/-- C7 witness on a concrete non-empty collection. -/
theorem claim_C7_witness :
    (0 < 1) ∧
      load_documents_if_needed true (Except.ok 1) true [row1] contents0 c0 = (c0, []) :=
  ⟨by decide, claim_C7 1 (by decide) true [row1] contents0 c0⟩

/-- C8: provided the index reports nonnegative distances, every score of
every result returned by `search` lies in `[0, 1]`, on the similarity path
(`max(0, 1 - distance)`) and on the fallback path (Jaccard similarity). -/
theorem claim_C8 (avail : Bool) (idx : Except Unit (List Neighbor)) (rows : List Row)
    (contents : List Char → Option (List Char)) (query : List Char) (k : Int)
    (module? tags? : Option (List Char))
    (hd : ∀ n ∈ neighborsOf idx, 0 ≤ n.distance) :
    ∀ r ∈ search avail idx rows contents query k module? tags?,
      0 ≤ r.score ∧ r.score ≤ 1 := by
  have fb : ∀ r ∈ fallback_search rows contents query k module? tags?,
      0 ≤ r.score ∧ r.score ≤ 1 := by
    intro r hr
    have hr2 := mem_sortDesc.mp (mem_pyTake hr)
    rcases List.mem_filterMap.mp hr2 with ⟨row, _, hsome⟩
    rcases rowResult_eq_some hsome with ⟨_, _, _, text, _, hscore, _⟩
    rw [hscore]
    exact ⟨jaccard_nonneg _ _, jaccard_le_one _ _⟩
  intro r hr
  cases avail with
  | false => exact fb r (by simpa [search] using hr)
  | true =>
    cases idx with
    | error e => exact fb r (by simpa [search] using hr)
    | ok neighbors =>
      by_cases hne : neighbors.isEmpty
      · rw [show search true (Except.ok neighbors) rows contents query k module? tags? =
            [] by simp [search, hne]] at hr
        simp at hr
      · rw [show search true (Except.ok neighbors) rows contents query k module? tags? =
            processNeighbors tags? k neighbors [] by simp [search, hne]] at hr
        rcases processNeighbors_mem neighbors [] r hr with h1 | ⟨n, hn, _, hrn⟩
        · simp at h1
        · have hdist : 0 ≤ n.distance := hd n (by simpa [neighborsOf] using hn)
          rw [hrn]
          simp only [mkSimResult]
          exact ⟨le_max_left _ _, max_le zero_le_one (by linarith)⟩

/-- C8 witness with a concrete neighbor at distance 1/2. -/
theorem claim_C8_witness :
    (∀ n ∈ neighborsOf (Except.ok [n1]), 0 ≤ n.distance) ∧
    (∀ r ∈ search true (Except.ok [n1]) [row1, row2] contents0 "refund".data 3 none none,
      0 ≤ r.score ∧ r.score ≤ 1) :=
  ⟨by decide, claim_C8 true (Except.ok [n1]) [row1, row2] contents0 "refund".data 3
    none none (by decide)⟩

/-- C9: the fallback matcher is deterministic — on equal document rows, equal
file contents and equal query arguments, two invocations return identical
ordered result sequences (in the embedding it is a pure function of these
inputs; word sets enter only through their cardinalities). -/
theorem claim_C9 (rows1 rows2 : List Row)
    (contents1 contents2 : List Char → Option (List Char)) (q1 q2 : List Char)
    (k1 k2 : Int) (m1 m2 t1 t2 : Option (List Char)) (hrows : rows1 = rows2)
    (hcont : contents1 = contents2) (hq : q1 = q2) (hk : k1 = k2) (hm : m1 = m2)
    (ht : t1 = t2) :
    fallback_search rows1 contents1 q1 k1 m1 t1 =
      fallback_search rows2 contents2 q2 k2 m2 t2 := by
  rw [hrows, hcont, hq, hk, hm, ht]

/-- C9 witness: two identical concrete invocations. -/
theorem claim_C9_witness :
    ([row1, row2] = [row1, row2]) ∧
      fallback_search [row1, row2] contents0 "refund".data 3 none none =
        fallback_search [row1, row2] contents0 "refund".data 3 none none :=
  ⟨rfl, claim_C9 [row1, row2] [row1, row2] contents0 contents0 "refund".data
    "refund".data 3 3 none none none none rfl rfl rfl rfl rfl rfl⟩

set_option maxRecDepth 20000 in
/-- C10 counterexample: with `k = -1` the fallback path of `search` returns a
non-empty sequence (Python `results[:-1]` drops only the last element), not
the empty sequence the claim states for every non-positive `k`. -/
theorem claim_C10_counterexample :
    search false (Except.ok []) [row1, row2] contents0 "refund".data (-1) none none ≠ [] := by
  decide

/-- C10 (amended): when `k = 0` the fallback path returns an empty sequence,
and when `k < 0` it returns the scored candidates with the last `|k|` of them
dropped (Python slice semantics), which can be non-empty; on the similarity
path, any non-positive `k` yields exactly one result whenever the index
returns at least one neighbor passing the tag filter, because a result is
appended before the `len ≥ k` stop check runs. -/
theorem claim_C10 (rows : List Row) (contents : List Char → Option (List Char))
    (query : List Char) (module? tags? : Option (List Char))
    (neighbors : List Neighbor) (idx : Except Unit (List Neighbor)) :
    (search false idx rows contents query 0 module? tags? = []) ∧
    (∀ k : Int, k < 0 →
      ((search false idx rows contents query k module? tags?).length : Int) =
        max (((rows.filterMap
          (rowResult contents (pyWords query) module? tags?)).length : Int) + k) 0) ∧
    (∀ k : Int, k ≤ 0 →
      (∃ n ∈ neighbors, optTruthy tags? →
        tagSubset (parseTags (tags?.getD [])) (parseTags n.meta.tags)) →
      (search true (Except.ok neighbors) rows contents query k module? tags?).length = 1) := by
  refine ⟨?_, ?_, ?_⟩
  · simp [search, fallback_search, pyTake]
  · intro k hk
    have h1 : search false idx rows contents query k module? tags? =
        fallback_search rows contents query k module? tags? := by
      simp [search]
    rw [h1]
    unfold fallback_search pyTake
    rw [if_neg (by omega), List.length_take, length_sortDesc, inf_eq_min]
    omega
  · intro k hk hex
    have hne : ¬ neighbors.isEmpty := by
      rcases hex with ⟨n, hn, _⟩
      cases neighbors with
      | nil => simp at hn
      | cons a t => simp
    rw [show search true (Except.ok neighbors) rows contents query k module? tags? =
        processNeighbors tags? k neighbors [] by simp [search, hne]]
    exact processNeighbors_one hk neighbors hex

set_option maxRecDepth 20000 in
/-- C10 witness: instantiates the three amended statements on concrete data —
`k = 0` gives an empty fallback result, `k = -1` drops one of two scored
candidates, and a passing neighbor yields exactly one similarity result. -/
theorem claim_C10_witness :
    (search false (Except.ok []) [row1, row2] contents0 "refund".data 0 none none = []) ∧
    (((-1 : Int) < 0) ∧
      ((search false (Except.ok []) [row1, row2] contents0 "refund".data (-1)
        none none).length : Int) =
        max ((([row1, row2].filterMap
          (rowResult contents0 (pyWords "refund".data) none none)).length : Int) + (-1)) 0) ∧
    (((0 : Int) ≤ 0) ∧
      (∃ n ∈ [n1], optTruthy (none : Option (List Char)) →
        tagSubset (parseTags ((none : Option (List Char)).getD []))
          (parseTags n.meta.tags)) ∧
      (search true (Except.ok [n1]) [row1, row2] contents0 "refund".data 0
        none none).length = 1) :=
  ⟨(claim_C10 [row1, row2] contents0 "refund".data none none [n1] (Except.ok [])).1,
   ⟨by decide,
    (claim_C10 [row1, row2] contents0 "refund".data none none [n1] (Except.ok [])).2.1
      (-1) (by decide)⟩,
   ⟨by decide, by decide,
    (claim_C10 [row1, row2] contents0 "refund".data none none [n1] (Except.ok [])).2.2
      0 (by decide) (by decide)⟩⟩

end VRag

